import Mathlib

/-!
Verification of the per-line syntax highlighter of `CodeSnippet.tsx`
(`highlightLine` and the renderer's empty-line fallback).

The JavaScript function is a fixed sequence of global regex substitutions.
Each substitution is embedded here as a left-to-right scanner over
`List Char` that reproduces the exact matching semantics of its regex
(greedy/lazy quantifiers, word boundaries, alternation order, the fact
that `.` does not match a newline, and that replacement text is not
rescanned by the pass that produced it).  Scanners take an explicit fuel
argument; every caller passes `length + 1`, which is sufficient because
every match consumes at least one character.
-/

namespace HL

/-- JS regex `\w`: ASCII letters, digits and underscore. -/
def wordChar (c : Char) : Bool := c.isAlphanum || c = '_'

/-- JS regex `\s`: whitespace characters. -/
def spaceChar (c : Char) : Bool :=
  c = ' ' || c = '\t' || c = '\n' || c = '\x0b' || c = '\x0c' || c = '\r' ||
  c = '\u00A0' || c = '\u1680' || ('\u2000' ≤ c && c ≤ '\u200A') || c = '\u2028' ||
  c = '\u2029' || c = '\u202F' || c = '\u205F' || c = '\u3000' || c = '\uFEFF'

/-- If `s` starts with the literal `p`, return the remainder of `s`. -/
def chopLit : List Char → List Char → Option (List Char)
  | [], s => some s
  | _ :: _, [] => none
  | p :: ps, c :: cs => if p = c then chopLit ps cs else none

/-- Does `s` start with the literal `p`? -/
def headIs (p s : List Char) : Bool := (chopLit p s).isSome

/-- Does the literal `p` occur contiguously anywhere in `s`? -/
def containsSeq (p : List Char) : List Char → Bool
  | [] => headIs p []
  | c :: cs => headIs p (c :: cs) || containsSeq p cs

/-- Split at the first occurrence of the character `ch`:
`some (pre, post)` means `s = pre ++ ch :: post` with `ch ∉ pre`. -/
def splitFirst (ch : Char) : List Char → Option (List Char × List Char)
  | [] => none
  | c :: cs =>
    if c = ch then some ([], cs)
    else
      match splitFirst ch cs with
      | some (pre, post) => some (c :: pre, post)
      | none => none

/-- First occurrence of the literal `pat`, not crossing a newline
(the JS `.` of a lazy `.*?` cannot match `\n`):
`some (pre, rest)` means `s = pre ++ pat ++ rest`, the occurrence is the
leftmost one, and `pre` contains no newline. -/
def findSeqNoNl (pat : List Char) : List Char → Option (List Char × List Char)
  | [] => none
  | c :: cs =>
    match chopLit pat (c :: cs) with
    | some rest => some ([], rest)
    | none =>
      if c = '\n' then none
      else
        match findSeqNoNl pat cs with
        | some (pre, rest) => some (c :: pre, rest)
        | none => none

/-- First occurrence of the literal `pat` (newline permitted before it):
`some (pre, rest)` means `s = pre ++ pat ++ rest`, leftmost occurrence. -/
def findSeq (pat : List Char) : List Char → Option (List Char × List Char)
  | [] => none
  | c :: cs =>
    match chopLit pat (c :: cs) with
    | some rest => some ([], rest)
    | none =>
      match findSeq pat cs with
      | some (pre, rest) => some (c :: pre, rest)
      | none => none

/-- JS `s.replace(/x/g, rep)` for a single character `x`. -/
def replaceCh (ch : Char) (rep : List Char) : List Char → List Char
  | [] => []
  | c :: cs => if c = ch then rep ++ replaceCh ch rep cs else c :: replaceCh ch rep cs

/-- Step 1 of `highlightLine`:
`raw.replace(/&/g,"&amp;").replace(/</g,"&lt;").replace(/>/g,"&gt;")`. -/
def escapeHtml (s : List Char) : List Char :=
  replaceCh '>' "&gt;".data
    (replaceCh '<' "&lt;".data
      (replaceCh '&' "&amp;".data s))

/-- `</span>` -/
def spanEnd : List Char := "</span>".data

/-- The liquid-delimiter span opener (`color:#1a7f37;font-weight:600`). -/
def spanDelim : List Char := "<span style=\"color:#1a7f37;font-weight:600\">".data

/-- The liquid-keyword span opener (`color:#cf222e;font-weight:600`). -/
def spanKw : List Char := "<span style=\"color:#cf222e;font-weight:600\">".data

/-- The liquid-output body span opener (`color:#0550ae`). -/
def spanOut : List Char := "<span style=\"color:#0550ae\">".data

/-- The filter-name span opener (`color:#953800;font-weight:500`). -/
def spanFilter : List Char := "<span style=\"color:#953800;font-weight:500\">".data

/-- The tag-delimiter span opener (`color:#6e7781`). -/
def spanGray : List Char := "<span style=\"color:#6e7781\">".data

/-- The attribute-name span opener (`color:#116329`). -/
def spanAttrName : List Char := "<span style=\"color:#116329\">".data

/-- The attribute-value / string span opener (`color:#0a3069`). -/
def spanStr : List Char := "<span style=\"color:#0a3069\">".data

/-- The JSON-key span opener (`color:#953800`). -/
def spanKey : List Char := "<span style=\"color:#953800\">".data

/-- The number span opener (`color:#0550ae`). -/
def spanNum : List Char := "<span style=\"color:#0550ae\">".data

/-- The boolean span opener (`color:#cf222e;font-weight:500`). -/
def spanBool : List Char := "<span style=\"color:#cf222e;font-weight:500\">".data

/-- The comment span opener (`color:#6e7781;font-style:italic`). -/
def spanComment : List Char := "<span style=\"color:#6e7781;font-style:italic\">".data

/-- The liquid keyword alternatives, in the source's alternation order. -/
def liquidKeywords : List (List Char) :=
  ["schema".data, "endschema".data, "section".data, "style".data,
   "javascript".data, "if".data, "for".data, "assign".data, "echo".data,
   "render".data, "include".data, "else".data, "elsif".data, "unless".data,
   "case".data, "when".data, "capture".data, "paginate".data, "form".data,
   "tablerow".data, "comment".data, "raw".data, "layout".data]

/-- After a matched word, `\b` requires end of input or a non-word character. -/
def boundaryAfter (s : List Char) : Bool :=
  match s with
  | [] => true
  | c :: _ => !wordChar c

/-- Try the alternatives of `\b(a1|a2|…)\b` at the current position, in order.
The scanner only calls this when the position is at a word boundary; a branch
whose trailing `\b` fails backtracks into the next alternative, as JS does. -/
def tryAlts (alts : List (List Char)) (s : List Char) : Option (List Char × List Char) :=
  match alts with
  | [] => none
  | a :: rest =>
    match chopLit a s with
    | some r => if boundaryAfter r then some (a, r) else tryAlts rest s
    | none => tryAlts rest s

/-- Global replace of `\b(schema|endschema|…)\b` inside a liquid tag, wrapping
each keyword in `spanKw`.  `pw` records whether the previous character of the
string being scanned is a word character (for the leading `\b`). -/
def kwGo : Nat → Bool → List Char → List Char
  | 0, _, s => s
  | _, _, [] => []
  | f + 1, pw, c :: cs =>
    match (if pw then none else tryAlts liquidKeywords (c :: cs)) with
    | some (kw, rest) => spanKw ++ kw ++ spanEnd ++ kwGo f true rest
    | none => c :: kwGo f (wordChar c) cs

/-- The keyword substitution applied to a liquid tag's inner text. -/
def kwSub (inner : List Char) : List Char := kwGo (inner.length + 1) false inner

/-- Lazy close search for `(\{%-?)(.*?)(-?%\})`: the leftmost position where
`-%}` (the greedy `-?` first) or `%}` matches, with no newline skipped over
(JS `.` does not match `\n`).  Returns `(inner, closeLit, rest)`. -/
def findTagClose : List Char → Option (List Char × List Char × List Char)
  | [] => none
  | c :: cs =>
    match chopLit ['-', '%', '\x7d'] (c :: cs) with
    | some rest => some ([], ['-', '%', '\x7d'], rest)
    | none =>
      match chopLit ['%', '\x7d'] (c :: cs) with
      | some rest => some ([], ['%', '\x7d'], rest)
      | none =>
        if c = '\n' then none
        else
          match findTagClose cs with
          | some (inner, cl, rest) => some (c :: inner, cl, rest)
          | none => none

/-- Match `(\{%-?)(.*?)(-?%\})` at the current position.  The greedy `-?` of
the opener never needs to backtrack: if no close is found after `{%-`, the
retry with opener `{%` fails as well (a close at the `-` position would imply
a close the first search already found). -/
def tryLiquidTag (s : List Char) : Option (List Char × List Char × List Char × List Char) :=
  match chopLit ['\x7b', '%'] s with
  | none => none
  | some a1 =>
    let (op, body) :=
      match a1 with
      | '-' :: t => (['\x7b', '%', '-'], t)
      | t => (['\x7b', '%'], t)
    match findTagClose body with
    | some (inner, cl, rest) => some (op, inner, cl, rest)
    | none => none

/-- Step 2a: global replace of `(\{%-?)(.*?)(-?%\})`, delimiters wrapped in
`spanDelim` and keywords inside wrapped by `kwSub`. -/
def liquidTagGo : Nat → List Char → List Char
  | 0, s => s
  | _, [] => []
  | f + 1, c :: cs =>
    match tryLiquidTag (c :: cs) with
    | some (op, inner, cl, rest) =>
      spanDelim ++ op ++ spanEnd ++ kwSub inner ++ spanDelim ++ cl ++ spanEnd
        ++ liquidTagGo f rest
    | none => c :: liquidTagGo f cs

def liquidTagSub (s : List Char) : List Char := liquidTagGo (s.length + 1) s

/-- Match `\|\s*(\w+)` at the current position: a bar, then whitespace, then a
nonempty word run.  Returns `($1, rest)`. -/
def tryFilter (s : List Char) : Option (List Char × List Char) :=
  match s with
  | '|' :: t =>
    let t2 := t.dropWhile spaceChar
    let w := t2.takeWhile wordChar
    if w = [] then none else some (w, t2.drop w.length)
  | _ => none

/-- Global replace of `\|\s*(\w+)` with `| spanFilter$1</span>` inside a
liquid output's inner text (the matched whitespace collapses to one space). -/
def filterGo : Nat → List Char → List Char
  | 0, s => s
  | _, [] => []
  | f + 1, c :: cs =>
    match tryFilter (c :: cs) with
    | some (w, rest) =>
      '|' :: ' ' :: spanFilter ++ w ++ spanEnd ++ filterGo f rest
    | none => c :: filterGo f cs

def filterSub (inner : List Char) : List Char := filterGo (inner.length + 1) inner

/-- Lazy close search for `(\{\{-?)(.*?)(-?\}\})`: leftmost `-}}` or `}}`,
not crossing a newline. -/
def findOutClose : List Char → Option (List Char × List Char × List Char)
  | [] => none
  | c :: cs =>
    match chopLit ['-', '\x7d', '\x7d'] (c :: cs) with
    | some rest => some ([], ['-', '\x7d', '\x7d'], rest)
    | none =>
      match chopLit ['\x7d', '\x7d'] (c :: cs) with
      | some rest => some ([], ['\x7d', '\x7d'], rest)
      | none =>
        if c = '\n' then none
        else
          match findOutClose cs with
          | some (inner, cl, rest) => some (c :: inner, cl, rest)
          | none => none

/-- Match `(\{\{-?)(.*?)(-?\}\})` at the current position (the greedy `-?`
of the opener never needs to backtrack, as for `tryLiquidTag`). -/
def tryLiquidOut (s : List Char) : Option (List Char × List Char × List Char × List Char) :=
  match chopLit ['\x7b', '\x7b'] s with
  | none => none
  | some a1 =>
    let (op, body) :=
      match a1 with
      | '-' :: t => (['\x7b', '\x7b', '-'], t)
      | t => (['\x7b', '\x7b'], t)
    match findOutClose body with
    | some (inner, cl, rest) => some (op, inner, cl, rest)
    | none => none

/-- Step 2b: global replace of `(\{\{-?)(.*?)(-?\}\})`: delimiters in
`spanDelim`, the body in `spanOut` with filter names highlighted. -/
def liquidOutGo : Nat → List Char → List Char
  | 0, s => s
  | _, [] => []
  | f + 1, c :: cs =>
    match tryLiquidOut (c :: cs) with
    | some (op, inner, cl, rest) =>
      spanDelim ++ op ++ spanEnd ++ spanOut ++ filterSub inner ++ spanEnd
        ++ spanDelim ++ cl ++ spanEnd ++ liquidOutGo f rest
    | none => c :: liquidOutGo f cs

def liquidOutSub (s : List Char) : List Char := liquidOutGo (s.length + 1) s

/-- The character class `[\\w-]` of the tag-name and attribute regexes. -/
def attrClass (c : Char) : Bool := wordChar c || c = '-'

/-- Lazy close search for the attribute value of
`([\\w-]+)(=)(&quot;|")(.*?)(&quot;|")`: the leftmost position where
`&quot;` (tried first) or `"` matches, not crossing a newline.
Returns `(value, closeLit, rest)`. -/
def findQuoteClose : List Char → Option (List Char × List Char × List Char)
  | [] => none
  | c :: cs =>
    match chopLit "&quot;".data (c :: cs) with
    | some rest => some ([], "&quot;".data, rest)
    | none =>
      if c = '"' then some ([], ['"'], cs)
      else if c = '\n' then none
      else
        match findQuoteClose cs with
        | some (v, cl, rest) => some (c :: v, cl, rest)
        | none => none

/-- Match `([\\w-]+)(=)(&quot;|")(.*?)(&quot;|")` at the current position.
`[\\w-]+` takes the maximal run: a shorter run would have to be followed by
`=`, impossible since run characters are not `=`.  Returns
`($1, $3, $4, $5, rest)`. -/
def tryAttr (s : List Char) :
    Option (List Char × List Char × List Char × List Char × List Char) :=
  let nm := s.takeWhile attrClass
  if nm = [] then none
  else
    match s.drop nm.length with
    | '=' :: t =>
      (match chopLit "&quot;".data t with
       | some v =>
         match findQuoteClose v with
         | some (val, cl, rest) => some (nm, "&quot;".data, val, cl, rest)
         | none => none
       | none =>
         match t with
         | '"' :: v =>
           match findQuoteClose v with
           | some (val, cl, rest) => some (nm, ['"'], val, cl, rest)
           | none => none
         | _ => none)
    | _ => none

/-- Global replace of the attribute regex inside a tag's attribute text:
`spanAttrName$1</span>$2spanStr$3$4$5</span>`. -/
def attrGo : Nat → List Char → List Char
  | 0, s => s
  | _, [] => []
  | f + 1, c :: cs =>
    match tryAttr (c :: cs) with
    | some (nm, q1, val, q2, rest) =>
      spanAttrName ++ nm ++ spanEnd ++ '=' :: spanStr ++ q1 ++ val ++ q2 ++ spanEnd
        ++ attrGo f rest
    | none => c :: attrGo f cs

def attrSub (attrs : List Char) : List Char := attrGo (attrs.length + 1) attrs

/-- Match `(&lt;\\/?)([\\w-]+)(.*?)(&gt;)` at the current position.  The
greedy `\\/?` and `[\\w-]+` never need to backtrack: shrinking the tag-name
run leaves it followed by a run character, which can neither begin `.*?`'s
close `&gt;` earlier nor satisfy anything new, and dropping a matched `/`
leaves `[\\w-]+` facing `/`.  Returns `(op, tagName, attrs, rest)`. -/
def tryHtmlTag (s : List Char) :
    Option (List Char × List Char × List Char × List Char) :=
  match chopLit "&lt;".data s with
  | none => none
  | some a1 =>
    let (op, a2) :=
      match a1 with
      | '/' :: t => ("&lt;/".data, t)
      | t => ("&lt;".data, t)
    let tg := a2.takeWhile attrClass
    if tg = [] then none
    else
      match findSeqNoNl "&gt;".data (a2.drop tg.length) with
      | some (attrs, rest) => some (op, tg, attrs, rest)
      | none => none

/-- Step 2c: global replace of `(&lt;\\/?)([\\w-]+)(.*?)(&gt;)`: delimiters in
`spanGray`, the tag name in `spanOut`'s color, attributes via `attrSub`. -/
def htmlTagGo : Nat → List Char → List Char
  | 0, s => s
  | _, [] => []
  | f + 1, c :: cs =>
    match tryHtmlTag (c :: cs) with
    | some (op, tg, attrs, rest) =>
      spanGray ++ op ++ spanEnd ++ spanOut ++ tg ++ spanEnd ++ attrSub attrs
        ++ spanGray ++ "&gt;".data ++ spanEnd ++ htmlTagGo f rest
    | none => c :: htmlTagGo f cs

def htmlTagSub (s : List Char) : List Char := htmlTagGo (s.length + 1) s

/-- Match `(&lt;!--)(.*?)(--&gt;)` at the current position. -/
def tryHtmlComment (s : List Char) : Option (List Char × List Char) :=
  match chopLit "&lt;!--".data s with
  | none => none
  | some a1 =>
    match findSeqNoNl "--&gt;".data a1 with
    | some (inner, rest) => some (inner, rest)
    | none => none

/-- Step 2d: global replace of `(&lt;!--)(.*?)(--&gt;)` with
`spanComment$1$2$3</span>`. -/
def htmlCommentGo : Nat → List Char → List Char
  | 0, s => s
  | _, [] => []
  | f + 1, c :: cs =>
    match tryHtmlComment (c :: cs) with
    | some (inner, rest) =>
      spanComment ++ "&lt;!--".data ++ inner ++ "--&gt;".data ++ spanEnd
        ++ htmlCommentGo f rest
    | none => c :: htmlCommentGo f cs

def htmlCommentSub (s : List Char) : List Char := htmlCommentGo (s.length + 1) s

/-- Digit characters of a positive `n`, most significant first, prepended to
`acc`; the fuel argument only needs to dominate the number of digits. -/
def natToDecGo : Nat → Nat → List Char → List Char
  | 0, _, acc => acc
  | _ + 1, 0, acc => acc
  | f + 1, n + 1, acc =>
    natToDecGo f ((n + 1) / 10) (Char.ofNat (48 + (n + 1) % 10) :: acc)

/-- The decimal numeral of `n`, as JS string interpolation prints it. -/
def natToDec (n : Nat) : List Char :=
  if n = 0 then ['0'] else natToDecGo (n + 1) n []

/-- JS `parseInt` on a nonempty digit run. -/
def decToNat (ds : List Char) : Nat :=
  ds.foldl (fun a c => 10 * a + (c.toNat - 48)) 0

/-- The placeholder the mask pass writes for tag number `n`:
`` `__HL_TAG_${n}__` ``. -/
def phTok (n : Nat) : List Char := "__HL_TAG_".data ++ natToDec n ++ "__".data

/-- Step 3: `s.replace(/<[^>]*>/g, m => { tags.push(m); return ph })`.
The regex's leftmost match starts at the first `<` of the text (a `<` with no
`>` anywhere after it matches nothing, and then no later `<` can match
either), and `[^>]*>` runs to the first `>` after it.  `n` is `tags.length`
at entry; the returned list holds the captured tags in order. -/
def maskGo : Nat → Nat → List Char → List Char × List (List Char)
  | 0, _, s => (s, [])
  | f + 1, n, s =>
    match splitFirst '<' s with
    | none => (s, [])
    | some (pre, afterLt) =>
      match splitFirst '>' afterLt with
      | none => (s, [])
      | some (body, rest) =>
        let (m, ts) := maskGo f (n + 1) rest
        (pre ++ phTok n ++ m, ('<' :: body ++ ['>']) :: ts)

def maskSub (s : List Char) : List Char × List (List Char) :=
  maskGo (s.length + 1) 0 s

/-- Match `"([\\w_-]+?)"\\s*:` at the current position.  The lazy `[\\w_-]+?`
must stop exactly at the first character outside the class, which has to be
the closing quote; `\\s*` then takes the maximal whitespace run, which must be
followed by `:`.  Returns `($1, rest)`. -/
def tryJsonKey (s : List Char) : Option (List Char × List Char) :=
  match s with
  | '"' :: t =>
    let k := t.takeWhile attrClass
    if k = [] then none
    else
      match t.drop k.length with
      | '"' :: u =>
        (match u.dropWhile spaceChar with
         | ':' :: v => some (k, v)
         | _ => none)
      | _ => none
  | _ => none

/-- Step 4a: global replace of `"([\\w_-]+?)"\\s*:` with
`spanKey"$1"</span>:` (the matched whitespace is dropped). -/
def jsonKeyGo : Nat → List Char → List Char
  | 0, s => s
  | _, [] => []
  | f + 1, c :: cs =>
    match tryJsonKey (c :: cs) with
    | some (k, rest) =>
      spanKey ++ '"' :: k ++ '"' :: spanEnd ++ ':' :: jsonKeyGo f rest
    | none => c :: jsonKeyGo f cs

def jsonKeySub (s : List Char) : List Char := jsonKeyGo (s.length + 1) s

/-- Match `"([^"]*)"` at the current position (a negated class does match
newlines).  Returns `($1, rest)`. -/
def tryStr (s : List Char) : Option (List Char × List Char) :=
  match s with
  | '"' :: t =>
    (match splitFirst '"' t with
     | some (content, rest) => some (content, rest)
     | none => none)
  | _ => none

/-- Step 4b: global replace of `"([^"]*)"` with `spanStr"$1"</span>`. -/
def strGo : Nat → List Char → List Char
  | 0, s => s
  | _, [] => []
  | f + 1, c :: cs =>
    match tryStr (c :: cs) with
    | some (content, rest) =>
      spanStr ++ '"' :: content ++ '"' :: spanEnd ++ strGo f rest
    | none => c :: strGo f cs

def strSub (s : List Char) : List Char := strGo (s.length + 1) s

/-- Match `\\b(\\d+\\.?\\d*)\\b` at the current position, assuming the caller
already established the leading word boundary.  JS backtracking makes three
outcomes possible: `int.frac`, `int.` (when the character after the matched
text is a word character, so the boundary sits after the dot), or `int`
alone. -/
def tryNum (s : List Char) : Option (List Char × List Char) :=
  let ints := s.takeWhile Char.isDigit
  if ints = [] then none
  else
    match s.drop ints.length with
    | '.' :: t =>
      let frac := t.takeWhile Char.isDigit
      if frac = [] then
        -- `\\d*` is empty: `int.` matches iff a word character follows the
        -- dot; otherwise `\\.?` backtracks to empty and `int` matches (the
        -- digit–dot boundary always holds).
        match t with
        | c :: _ =>
          if wordChar c then some (ints ++ ['.'], t) else some (ints, '.' :: t)
        | [] => some (ints, '.' :: t)
      else
        if boundaryAfter (t.drop frac.length) then
          some (ints ++ '.' :: frac, t.drop frac.length)
        else
          -- shrinking `\\d*` leaves digit–digit positions (no boundary) until
          -- it is empty, where dot–digit is a boundary: `int.` matches.
          some (ints ++ ['.'], t)
    | t => if boundaryAfter t then some (ints, t) else none

/-- Step 4c: global replace of `\\b(\\d+\\.?\\d*)\\b` with `spanNum$1</span>`.
`pw` records whether the previous character is a word character. -/
def numGo : Nat → Bool → List Char → List Char
  | 0, _, s => s
  | _, _, [] => []
  | f + 1, pw, c :: cs =>
    match (if pw then none else tryNum (c :: cs)) with
    | some (num, rest) =>
      spanNum ++ num ++ spanEnd
        ++ numGo f (match num.getLast? with | some d => wordChar d | none => false) rest
    | none => c :: numGo f (wordChar c) cs

def numSub (s : List Char) : List Char := numGo (s.length + 1) false s

/-- The boolean/nil alternatives, in the source's alternation order. -/
def boolWords : List (List Char) :=
  ["true".data, "false".data, "nil".data, "null".data]

/-- Step 4d: global replace of `\\b(true|false|nil|null)\\b` with
`spanBool$1</span>`. -/
def boolGo : Nat → Bool → List Char → List Char
  | 0, _, s => s
  | _, _, [] => []
  | f + 1, pw, c :: cs =>
    match (if pw then none else tryAlts boolWords (c :: cs)) with
    | some (w, rest) => spanBool ++ w ++ spanEnd ++ boolGo f true rest
    | none => c :: boolGo f (wordChar c) cs

def boolSub (s : List Char) : List Char := boolGo (s.length + 1) false s

/-- The literal `__HL_TAG_` that starts every placeholder. -/
def patHL : List Char := "__HL_TAG_".data

/-- The mask-table lookup of the unmask replacer, `tags[parseInt(i)]`:
a missing entry is JS `undefined`, which `String.prototype.replace`
stringifies to the text `undefined`. -/
def tagAt (tags : List (List Char)) (k : Nat) : List Char :=
  tags.getD k "undefined".data

/-- Match `__HL_TAG_(\\d+)__` at the current position: the literal, then the
maximal (necessarily whole) digit run, then `__`.  Returns
`(parseInt($1), rest)`. -/
def tryTok (s : List Char) : Option (Nat × List Char) :=
  match chopLit patHL s with
  | none => none
  | some s1 =>
    match s1.takeWhile Char.isDigit with
    | [] => none
    | ds =>
      match chopLit "__".data (s1.drop ds.length) with
      | none => none
      | some r => some (decToNat ds, r)

/-- Step 5: `s.replace(/__HL_TAG_(\\d+)__/g, (_, i) => tags[parseInt(i)])`. -/
def unmaskGo (tags : List (List Char)) : Nat → List Char → List Char
  | 0, s => s
  | _, [] => []
  | f + 1, c :: cs =>
    match tryTok (c :: cs) with
    | some (k, rest) => tagAt tags k ++ unmaskGo tags f rest
    | none => c :: unmaskGo tags f cs

def unmaskSub (tags : List (List Char)) (s : List Char) : List Char :=
  unmaskGo tags (s.length + 1) s

/-- Steps 1–2 of `highlightLine`: escape, liquid tags, liquid output,
HTML tags, HTML comments. -/
def structuralStage (raw : String) : List Char :=
  htmlCommentSub (htmlTagSub (liquidOutSub (liquidTagSub (escapeHtml raw.data))))

/-- Steps 1–3: the structural passes followed by the mask pass;
returns the masked text and the mask table. -/
def maskStage (raw : String) : List Char × List (List Char) :=
  maskSub (structuralStage raw)

/-- Step 4: the four content passes, in source order. -/
def contentStage (s : List Char) : List Char :=
  boolSub (numSub (strSub (jsonKeySub s)))

/-- The full `highlightLine` pipeline of `CodeSnippet.tsx`. -/
def highlightLine (raw : String) : String :=
  let (m, tags) := maskStage raw
  ⟨unmaskSub tags (contentStage m)⟩

/-- What the renderer injects for one line:
`highlightLine(line) || " "` (the JS fallback fires exactly on the empty
string, the only falsy string, and is an ordinary U+0020 space). -/
def renderLineHtml (line : String) : String :=
  let h := highlightLine line
  if h = "" then " " else h

/-- Number of `__HL_TAG_(\\d+)__` tokens in a text, counted with the unmask
pass's own matcher. -/
def tokCountGo : Nat → List Char → Nat
  | 0, _ => 0
  | _, [] => 0
  | f + 1, c :: cs =>
    match tryTok (c :: cs) with
    | some (_, rest) => tokCountGo f rest + 1
    | none => tokCountGo f cs

def tokCount (s : List Char) : Nat := tokCountGo (s.length + 1) s

/-- Do the given literals all occur in `s`, in order and disjointly? -/
def seqContains : List (List Char) → List Char → Bool
  | [], _ => true
  | t :: ts, s =>
    match findSeq t s with
    | some (_, rest) => seqContains ts rest
    | none => false

/-- Is `l` exactly one opening span tag `<span style="…">` or one closing
`</span>`, as the structural passes emit them? -/
def isSpanTagB (l : List Char) : Bool :=
  l == spanEnd ||
  (headIs "<span style=\"".data l &&
   (match l.getLast? with | some c => c = '>' | none => false) &&
   (l.filter (fun c => c = '<')).length == 1 &&
   (l.filter (fun c => c = '>')).length == 1)

/-- A tiny alphabet that none of the passes can match: used to exhibit that
text without any recognizable construct flows through the pipeline
unchanged. -/
def safePlain (c : Char) : Bool := c = 'a' || c = 'b' || c = 'c' || c = ' '

/-- `decToNat` with an explicit accumulator (the same left fold). -/
def decAux (a : Nat) (ds : List Char) : Nat :=
  ds.foldl (fun a c => 10 * a + (c.toNat - 48)) a

end HL

namespace HL

set_option maxRecDepth 400000

/-! ### Concrete claim theorems -/

/-- C1: refuted on the code.  For `<img width="1200">` the numeral inside the
attribute value is *not* colored exactly once: the string pass re-wraps the
quoted value that the tag pass already wrapped, and the bare-number pass then
wraps `1200` itself in an additional number span (`spanNum`), nested inside
both. -/
theorem attrValueNumber_extraNumberSpan :
    highlightLine "<img width=\"1200\">" =
      "<span style=\"color:#6e7781\">&lt;</span><span style=\"color:#0550ae\">img</span> <span style=\"color:#116329\">width</span>=<span style=\"color:#0a3069\"><span style=\"color:#0a3069\">\"<span style=\"color:#0550ae\">1200</span>\"</span></span><span style=\"color:#6e7781\">&gt;</span>" ∧
    containsSeq (spanNum ++ "1200".data ++ spanEnd)
      (highlightLine "<img width=\"1200\">").data = true :=
  ⟨rfl, by decide⟩

/-- C2 counterexample: for the input `__HL_TAG_0__` the structural passes
produce zero spans, yet the masked text contains one placeholder token (the
input's own text), and unmasking destroys it: the final output is the text
`undefined`, not the input. -/
theorem maskCount_mismatch_on_placeholder_input :
    (maskStage "__HL_TAG_0__").2.length = 0 ∧
    tokCount (maskStage "__HL_TAG_0__").1 = 1 ∧
    highlightLine "__HL_TAG_0__" = "undefined" :=
  ⟨by decide, by decide, rfl⟩

/-- C3 counterexample: feeding the already-escaped text `&amp;` through the
pipeline double-escapes it to `&amp;amp;` — the escape pass replaces every
`&` of its input, including those of existing entities. -/
theorem alreadyEscaped_is_reEscaped :
    highlightLine "&amp;" = "&amp;amp;" := rfl

/-- C3 amended: the pipeline escapes whatever input it receives exactly once
— a raw `&` becomes `&amp;` and is never re-escaped by a later pass — and
consequently input that is *already* escaped is escaped again (`&amp;`
becomes `&amp;amp;`). -/
theorem escape_applied_once :
    highlightLine "&" = "&amp;" ∧
    highlightLine "a & b" = "a &amp; b" ∧
    highlightLine "&amp;" = "&amp;amp;" :=
  ⟨rfl, rfl, rfl⟩

/-- C5 counterexample: the renderer's empty-line fallback is the ordinary
space character U+0020, not the non-breaking space U+00A0. -/
theorem emptyLine_fallback_not_nbsp :
    renderLineHtml "" = " " ∧ renderLineHtml "" ≠ "\u00A0" :=
  ⟨rfl, by decide⟩

/-- C5 amended: `highlightLine` maps the empty line to the empty string, and
the renderer's `highlightLine(line) || " "` fallback therefore injects a
single ordinary space (U+0020) for it, so the output is non-empty. -/
theorem emptyLine_fallback_plain_space :
    highlightLine "" = "" ∧ renderLineHtml "" = " " :=
  ⟨rfl, rfl⟩

/-- C6 counterexample: a placeholder token whose index has no mask-table
entry does not make the highlighter fail: `tags[5]` is JS `undefined`, the
replacer's return value is stringified, and the output silently becomes the
text `undefined`. -/
theorem unmask_missing_entry_silently_undefined :
    highlightLine "__HL_TAG_5__" = "undefined" := rfl

/-- C6 amended: on a placeholder token with no corresponding mask-table
entry the unmask pass substitutes the text `undefined` (the stringified
missing JS array entry) and continues — content is silently corrupted, with
no loud failure. -/
theorem unmask_missing_entry_behavior :
    highlightLine "a __HL_TAG_7__ b" = "a undefined b" ∧
    tagAt [] 5 = "undefined".data :=
  ⟨rfl, rfl⟩

/-- C7: refuted on the code.  For `"count": 5` the later content passes
re-scan the span the JSON-key pass created: the string pass wraps the key
span's own `style` value and `"count"`, and the number pass wraps the
`953800` of the key span's color.  The output does not contain the clean
key-color span around `"count"`; `5` is wrapped and `:` is unstyled. -/
theorem jsonKey_span_corrupted_by_later_passes :
    highlightLine "\"count\": 5" =
      "<span style=<span style=\"color:#0a3069\">\"color:#<span style=\"color:#0550ae\">953800</span>\"</span>><span style=\"color:#0a3069\">\"count\"</span></span>: <span style=\"color:#0550ae\">5</span>" ∧
    containsSeq (spanKey ++ "\"count\"".data ++ spanEnd)
      (highlightLine "\"count\": 5").data = false ∧
    containsSeq (spanNum ++ "5".data ++ spanEnd)
      (highlightLine "\"count\": 5").data = true ∧
    containsSeq (spanNum ++ "953800".data ++ spanEnd)
      (highlightLine "\"count\": 5").data = true :=
  ⟨rfl, by decide, by decide, by decide⟩

/-- C8: refuted on the code.  For `<div class="a">` each token does get its
assigned color, but the quoted value `"a"` is wrapped twice: once by the tag
pass's attribute-value span and again by the string content pass (two nested
`spanStr` spans) — an overlapping, doubly applied span. -/
theorem attrValue_double_wrapped :
    highlightLine "<div class=\"a\">" =
      "<span style=\"color:#6e7781\">&lt;</span><span style=\"color:#0550ae\">div</span> <span style=\"color:#116329\">class</span>=<span style=\"color:#0a3069\"><span style=\"color:#0a3069\">\"a\"</span></span><span style=\"color:#6e7781\">&gt;</span>" ∧
    containsSeq (spanStr ++ spanStr ++ "\"a\"".data ++ spanEnd ++ spanEnd)
      (highlightLine "<div class=\"a\">").data = true :=
  ⟨rfl, by decide⟩

/-- C9: the number pass binds at word boundaries: digits embedded in a word
(`item123`) are never matched, while a standalone `123` is wrapped in the
number span. -/
theorem number_word_boundary :
    highlightLine "item123" = "item123" ∧
    highlightLine "x item123 y" = "x item123 y" ∧
    highlightLine "123" = "<span style=\"color:#0550ae\">123</span>" ∧
    highlightLine "x 123 y" = "x <span style=\"color:#0550ae\">123</span> y" :=
  ⟨rfl, rfl, rfl, rfl⟩

/-- C10 counterexample: when constructs nest (`<div a="{{ y }}">`), the
attribute pass splits span markup produced by the liquid pass, and a
mask-table entry is the mangled fragment `<span style="</span>` — not an
opening or closing span tag. -/
theorem maskTable_entry_not_span_tag :
    (maskStage "<div a=\"\x7b\x7b y \x7d\x7d\">").2.getD 7 [] =
      "<span style=\"</span>".data ∧
    isSpanTagB ((maskStage "<div a=\"\x7b\x7b y \x7d\x7d\">").2.getD 7 []) = false :=
  ⟨by decide, by decide⟩

/-! ### Helper lemmas: character membership under the escape pass -/

theorem mem_replaceCh {c ch : Char} {rep : List Char} :
    ∀ {s : List Char}, c ∈ replaceCh ch rep s → c ∈ rep ∨ (c ∈ s ∧ c ≠ ch) := by
  intro s
  induction s with
  | nil => intro h; simp [replaceCh] at h
  | cons d ds ih =>
    simp only [replaceCh]
    split
    · next hd =>
      intro hm
      rcases List.mem_append.1 hm with h1 | h1
      · exact Or.inl h1
      · rcases ih h1 with h2 | h2
        · exact Or.inl h2
        · exact Or.inr ⟨List.mem_cons_of_mem _ h2.1, h2.2⟩
    · next hd =>
      intro hm
      rcases List.mem_cons.1 hm with h1 | h1
      · subst h1; exact Or.inr ⟨List.mem_cons_self _ _, hd⟩
      · rcases ih h1 with h2 | h2
        · exact Or.inl h2
        · exact Or.inr ⟨List.mem_cons_of_mem _ h2.1, h2.2⟩

/-- The escape pass leaves no literal `<` or `>` in its output: every angle
bracket seen by the later passes was produced by those passes themselves. -/
theorem escapeHtml_no_angle (s : List Char) :
    '<' ∉ escapeHtml s ∧ '>' ∉ escapeHtml s := by
  constructor
  · intro h
    rcases mem_replaceCh h with h1 | ⟨h1, _⟩
    · exact absurd h1 (by decide)
    · rcases mem_replaceCh h1 with h2 | ⟨_, h2⟩
      · exact absurd h2 (by decide)
      · exact h2 rfl
  · intro h
    rcases mem_replaceCh h with h1 | ⟨_, h2⟩
    · exact absurd h1 (by decide)
    · exact h2 rfl

/-! ### Helper lemmas: no pass matches on the `safePlain` alphabet -/

theorem chopLit_cons_ne {p c : Char} {ps s : List Char} (h : c ≠ p) :
    chopLit (p :: ps) (c :: s) = none := by
  unfold chopLit
  exact if_neg (fun he => h he.symm)

theorem safePlain_spec {c : Char} (h : safePlain c = true) :
    c ≠ '&' ∧ c ≠ '<' ∧ c ≠ '>' ∧ c ≠ '\x7b' ∧ c ≠ '"' ∧ c.isDigit = false ∧
    c ≠ 't' ∧ c ≠ 'f' ∧ c ≠ 'n' ∧ c ≠ '_' := by
  have hc : ((c = 'a' ∨ c = 'b') ∨ c = 'c') ∨ c = ' ' := by
    simpa [safePlain, Bool.or_eq_true, decide_eq_true_eq] using h
  rcases hc with ((h | h) | h) | h <;> subst h <;> decide

theorem replaceCh_id {ch : Char} {rep : List Char} :
    ∀ {s : List Char}, (∀ c ∈ s, c ≠ ch) → replaceCh ch rep s = s := by
  intro s
  induction s with
  | nil => intro _; rfl
  | cons d ds ih =>
    intro h
    simp only [replaceCh]
    rw [if_neg (h d (List.mem_cons_self d ds)), ih (fun c hc => h c (List.mem_cons_of_mem d hc))]

theorem splitFirst_none {ch : Char} :
    ∀ {s : List Char}, (∀ c ∈ s, c ≠ ch) → splitFirst ch s = none := by
  intro s
  induction s with
  | nil => intro _; rfl
  | cons d ds ih =>
    intro h
    simp only [splitFirst]
    rw [if_neg (h d (List.mem_cons_self d ds)), ih (fun c hc => h c (List.mem_cons_of_mem d hc))]

theorem escapeHtml_id {s : List Char} (h : ∀ c ∈ s, safePlain c = true) :
    escapeHtml s = s := by
  unfold escapeHtml
  rw [replaceCh_id (fun c hc => (safePlain_spec (h c hc)).1)]
  rw [replaceCh_id (fun c hc => (safePlain_spec (h c hc)).2.1)]
  rw [replaceCh_id (fun c hc => (safePlain_spec (h c hc)).2.2.1)]

theorem tryLiquidTag_none {c : Char} {cs : List Char} (h : c ≠ '\x7b') :
    tryLiquidTag (c :: cs) = none := by
  unfold tryLiquidTag
  rw [chopLit_cons_ne h]

theorem tryLiquidOut_none {c : Char} {cs : List Char} (h : c ≠ '\x7b') :
    tryLiquidOut (c :: cs) = none := by
  unfold tryLiquidOut
  rw [chopLit_cons_ne h]

theorem tryHtmlTag_none {c : Char} {cs : List Char} (h : c ≠ '&') :
    tryHtmlTag (c :: cs) = none := by
  unfold tryHtmlTag
  rw [show "&lt;".data = '&' :: "lt;".data from rfl, chopLit_cons_ne h]

theorem tryHtmlComment_none {c : Char} {cs : List Char} (h : c ≠ '&') :
    tryHtmlComment (c :: cs) = none := by
  unfold tryHtmlComment
  rw [show "&lt;!--".data = '&' :: "lt;!--".data from rfl, chopLit_cons_ne h]

theorem tryJsonKey_none {c : Char} {cs : List Char} (h : c ≠ '"') :
    tryJsonKey (c :: cs) = none := by
  unfold tryJsonKey
  split
  · next t heq => exact absurd (List.head_eq_of_cons_eq heq) h
  · rfl

theorem tryStr_none {c : Char} {cs : List Char} (h : c ≠ '"') :
    tryStr (c :: cs) = none := by
  unfold tryStr
  split
  · next t heq => exact absurd (List.head_eq_of_cons_eq heq) h
  · rfl

theorem tryNum_none {c : Char} {cs : List Char} (h : c.isDigit = false) :
    tryNum (c :: cs) = none := by
  unfold tryNum
  simp [List.takeWhile_cons, h]

theorem tryBool_none {c : Char} {cs : List Char}
    (ht : c ≠ 't') (hf : c ≠ 'f') (hn : c ≠ 'n') :
    tryAlts boolWords (c :: cs) = none := by
  simp only [boolWords, tryAlts,
    show "true".data = 't' :: "rue".data from rfl,
    show "false".data = 'f' :: "alse".data from rfl,
    show "nil".data = 'n' :: "il".data from rfl,
    show "null".data = 'n' :: "ull".data from rfl,
    chopLit_cons_ne ht, chopLit_cons_ne hf, chopLit_cons_ne hn]

theorem tryTok_none_head {c : Char} {cs : List Char} (h : c ≠ '_') :
    tryTok (c :: cs) = none := by
  unfold tryTok
  rw [show patHL = '_' :: "_HL_TAG_".data from rfl, chopLit_cons_ne h]

theorem liquidTagGo_id :
    ∀ (s : List Char) (f : Nat), s.length ≤ f →
      (∀ c ∈ s, safePlain c = true) → liquidTagGo f s = s := by
  intro s
  induction s with
  | nil => intro f _ _; cases f <;> rfl
  | cons c cs ih =>
    intro f hf hs
    match f, hf with
    | f + 1, hf =>
      have hc := safePlain_spec (hs c (List.mem_cons_self c cs))
      simp only [liquidTagGo, tryLiquidTag_none hc.2.2.2.1]
      rw [ih f (Nat.le_of_succ_le_succ (by simpa using hf))
        (fun d hd => hs d (List.mem_cons_of_mem c hd))]

theorem liquidOutGo_id :
    ∀ (s : List Char) (f : Nat), s.length ≤ f →
      (∀ c ∈ s, safePlain c = true) → liquidOutGo f s = s := by
  intro s
  induction s with
  | nil => intro f _ _; cases f <;> rfl
  | cons c cs ih =>
    intro f hf hs
    match f, hf with
    | f + 1, hf =>
      have hc := safePlain_spec (hs c (List.mem_cons_self c cs))
      simp only [liquidOutGo, tryLiquidOut_none hc.2.2.2.1]
      rw [ih f (Nat.le_of_succ_le_succ (by simpa using hf))
        (fun d hd => hs d (List.mem_cons_of_mem c hd))]

theorem htmlTagGo_id :
    ∀ (s : List Char) (f : Nat), s.length ≤ f →
      (∀ c ∈ s, safePlain c = true) → htmlTagGo f s = s := by
  intro s
  induction s with
  | nil => intro f _ _; cases f <;> rfl
  | cons c cs ih =>
    intro f hf hs
    match f, hf with
    | f + 1, hf =>
      have hc := safePlain_spec (hs c (List.mem_cons_self c cs))
      simp only [htmlTagGo, tryHtmlTag_none hc.1]
      rw [ih f (Nat.le_of_succ_le_succ (by simpa using hf))
        (fun d hd => hs d (List.mem_cons_of_mem c hd))]

theorem htmlCommentGo_id :
    ∀ (s : List Char) (f : Nat), s.length ≤ f →
      (∀ c ∈ s, safePlain c = true) → htmlCommentGo f s = s := by
  intro s
  induction s with
  | nil => intro f _ _; cases f <;> rfl
  | cons c cs ih =>
    intro f hf hs
    match f, hf with
    | f + 1, hf =>
      have hc := safePlain_spec (hs c (List.mem_cons_self c cs))
      simp only [htmlCommentGo, tryHtmlComment_none hc.1]
      rw [ih f (Nat.le_of_succ_le_succ (by simpa using hf))
        (fun d hd => hs d (List.mem_cons_of_mem c hd))]

theorem maskGo_id {s : List Char} (f n : Nat)
    (hs : ∀ c ∈ s, safePlain c = true) : maskGo f n s = (s, []) := by
  cases f with
  | zero => rfl
  | succ f =>
    simp only [maskGo, splitFirst_none (fun c hc => (safePlain_spec (hs c hc)).2.1)]

theorem jsonKeyGo_id :
    ∀ (s : List Char) (f : Nat), s.length ≤ f →
      (∀ c ∈ s, safePlain c = true) → jsonKeyGo f s = s := by
  intro s
  induction s with
  | nil => intro f _ _; cases f <;> rfl
  | cons c cs ih =>
    intro f hf hs
    match f, hf with
    | f + 1, hf =>
      have hc := safePlain_spec (hs c (List.mem_cons_self c cs))
      simp only [jsonKeyGo, tryJsonKey_none hc.2.2.2.2.1]
      rw [ih f (Nat.le_of_succ_le_succ (by simpa using hf))
        (fun d hd => hs d (List.mem_cons_of_mem c hd))]

theorem strGo_id :
    ∀ (s : List Char) (f : Nat), s.length ≤ f →
      (∀ c ∈ s, safePlain c = true) → strGo f s = s := by
  intro s
  induction s with
  | nil => intro f _ _; cases f <;> rfl
  | cons c cs ih =>
    intro f hf hs
    match f, hf with
    | f + 1, hf =>
      have hc := safePlain_spec (hs c (List.mem_cons_self c cs))
      simp only [strGo, tryStr_none hc.2.2.2.2.1]
      rw [ih f (Nat.le_of_succ_le_succ (by simpa using hf))
        (fun d hd => hs d (List.mem_cons_of_mem c hd))]

theorem numGo_id :
    ∀ (s : List Char) (f : Nat) (pw : Bool), s.length ≤ f →
      (∀ c ∈ s, safePlain c = true) → numGo f pw s = s := by
  intro s
  induction s with
  | nil => intro f pw _ _; cases f <;> rfl
  | cons c cs ih =>
    intro f pw hf hs
    match f, hf with
    | f + 1, hf =>
      have hc := safePlain_spec (hs c (List.mem_cons_self c cs))
      have hnone : (if pw then none else tryNum (c :: cs)) = none := by
        cases pw
        · simpa using tryNum_none hc.2.2.2.2.2.1
        · rfl
      simp only [numGo, hnone]
      rw [ih f (wordChar c) (Nat.le_of_succ_le_succ (by simpa using hf))
        (fun d hd => hs d (List.mem_cons_of_mem c hd))]

theorem boolGo_id :
    ∀ (s : List Char) (f : Nat) (pw : Bool), s.length ≤ f →
      (∀ c ∈ s, safePlain c = true) → boolGo f pw s = s := by
  intro s
  induction s with
  | nil => intro f pw _ _; cases f <;> rfl
  | cons c cs ih =>
    intro f pw hf hs
    match f, hf with
    | f + 1, hf =>
      have hc := safePlain_spec (hs c (List.mem_cons_self c cs))
      have hnone : (if pw then none else tryAlts boolWords (c :: cs)) = none := by
        cases pw
        · simpa using tryBool_none hc.2.2.2.2.2.2.1 hc.2.2.2.2.2.2.2.1 hc.2.2.2.2.2.2.2.2.1
        · rfl
      simp only [boolGo, hnone]
      rw [ih f (wordChar c) (Nat.le_of_succ_le_succ (by simpa using hf))
        (fun d hd => hs d (List.mem_cons_of_mem c hd))]

theorem unmaskGo_id_safe (tags : List (List Char)) :
    ∀ (s : List Char) (f : Nat), s.length ≤ f →
      (∀ c ∈ s, safePlain c = true) → unmaskGo tags f s = s := by
  intro s
  induction s with
  | nil => intro f _ _; cases f <;> rfl
  | cons c cs ih =>
    intro f hf hs
    match f, hf with
    | f + 1, hf =>
      have hc := safePlain_spec (hs c (List.mem_cons_self c cs))
      simp only [unmaskGo, tryTok_none_head hc.2.2.2.2.2.2.2.2.2]
      rw [ih f (Nat.le_of_succ_le_succ (by simpa using hf))
        (fun d hd => hs d (List.mem_cons_of_mem c hd))]

/-- Text over the `safePlain` alphabet flows through the whole pipeline
unchanged: no pass matches anything in it. -/
theorem highlightLine_id (s : String) (h : s.data.all safePlain = true) :
    highlightLine s = s := by
  have hs : ∀ c ∈ s.data, safePlain c = true := List.all_eq_true.mp h
  have e1 : structuralStage s = s.data := by
    unfold structuralStage liquidTagSub liquidOutSub htmlTagSub htmlCommentSub
    rw [escapeHtml_id hs, liquidTagGo_id s.data _ (Nat.le_succ _) hs,
        liquidOutGo_id s.data _ (Nat.le_succ _) hs,
        htmlTagGo_id s.data _ (Nat.le_succ _) hs,
        htmlCommentGo_id s.data _ (Nat.le_succ _) hs]
  have e2 : maskStage s = (s.data, []) := by
    unfold maskStage maskSub
    rw [e1]
    exact maskGo_id _ 0 hs
  have e3 : contentStage s.data = s.data := by
    unfold contentStage jsonKeySub strSub numSub boolSub
    rw [jsonKeyGo_id s.data _ (Nat.le_succ _) hs, strGo_id s.data _ (Nat.le_succ _) hs,
        numGo_id s.data _ false (Nat.le_succ _) hs,
        boolGo_id s.data _ false (Nat.le_succ _) hs]
  show (let md := maskStage s; (⟨unmaskSub md.2 (contentStage md.1)⟩ : String)) = s
  rw [e2]
  show (⟨unmaskSub [] (contentStage s.data)⟩ : String) = s
  rw [e3]
  unfold unmaskSub
  rw [unmaskGo_id_safe [] s.data _ (Nat.le_succ _) hs]

/-- C4: in this embedding `highlightLine` is a total Lean function — defined,
deterministic and effect-free for every input string by construction.  The
substantive content shown here: text in which nothing matches (including
unbalanced construct openers such as `<div`, `{% if x` and `"unclosed`)
passes through as plain escaped text rather than failing. -/
theorem highlightLine_total_gracefulFallthrough :
    (∀ s : String, s.data.all safePlain = true → highlightLine s = s) ∧
    highlightLine "<div" = "&lt;div" ∧
    highlightLine "\x7b% if x" = "\x7b% if x" ∧
    highlightLine "\"unclosed" = "\"unclosed" :=
  ⟨fun s h => highlightLine_id s h, rfl, rfl, rfl⟩

/-- C4 witness: the graceful-fallthrough theorem applied at `"ab c"`. -/
theorem highlightLine_total_gracefulFallthrough_witness :
    ("ab c" : String).data.all safePlain = true ∧ highlightLine "ab c" = "ab c" :=
  ⟨by decide, highlightLine_total_gracefulFallthrough.1 "ab c" (by decide)⟩

/-- C10 amended: raw input cannot contribute any angle bracket to the text
the mask pass scans — the escape pass eliminates every `<` and `>` — so every
mask-table entry consists of markup generated by the highlighter's own
passes; and for inputs whose constructs do not nest, every entry is exactly
an opening or closing span tag (verified on `<div class="a">`).  When
constructs nest the entries can be mangled fragments of generated markup
(see the counterexample), but never text of the raw input. -/
theorem maskTable_entries_generated_markup :
    (∀ s : List Char, '<' ∉ escapeHtml s ∧ '>' ∉ escapeHtml s) ∧
    (maskStage "<div class=\"a\">").2.all isSpanTagB = true :=
  ⟨escapeHtml_no_angle, by decide⟩

/-! ### Helper lemmas: prefixes, occurrences, decimal numerals -/

theorem chopLit_iff {p : List Char} :
    ∀ {s r : List Char}, chopLit p s = some r ↔ s = p ++ r := by
  induction p with
  | nil => intro s r; simp [chopLit]
  | cons p ps ih =>
    intro s r
    cases s with
    | nil => simp [chopLit]
    | cons c cs =>
      simp only [chopLit, List.cons_append]
      by_cases h : p = c
      · subst h
        rw [if_pos rfl]
        constructor
        · intro hx; rw [(ih.mp hx : cs = ps ++ r)]
        · intro hx
          injection hx with _ h2
          exact ih.mpr h2
      · rw [if_neg h]
        constructor
        · intro hx; simp at hx
        · intro hx; injection hx with h1 _; exact absurd h1.symm h

theorem chopLit_self (p r : List Char) : chopLit p (p ++ r) = some r :=
  chopLit_iff.mpr rfl

theorem headIs_append (p r : List Char) : headIs p (p ++ r) = true := by
  simp [headIs, chopLit_self]

theorem containsSeq_cons (p : List Char) (c : Char) (cs : List Char) :
    containsSeq p (c :: cs) = (headIs p (c :: cs) || containsSeq p cs) := rfl

theorem headIs_mono {p t y : List Char} (h : headIs p t = true) :
    headIs p (t ++ y) = true := by
  simp only [headIs, Option.isSome_iff_exists] at h ⊢
  rcases h with ⟨r, hr⟩
  exact ⟨r ++ y, chopLit_iff.mpr (by rw [chopLit_iff.mp hr]; simp)⟩

theorem containsSeq_of_headIs {p s : List Char} (hp : p ≠ []) (h : headIs p s = true) :
    containsSeq p s = true := by
  cases s with
  | nil =>
    cases p with
    | nil => exact absurd rfl hp
    | cons a ps => simp [headIs, chopLit] at h
  | cons c cs => rw [containsSeq_cons, h]; rfl

theorem containsSeq_sub_right {p y : List Char} :
    ∀ {x : List Char}, containsSeq p y = true → containsSeq p (x ++ y) = true := by
  intro x
  induction x with
  | nil => intro h; simpa using h
  | cons c cs ih =>
    intro h
    simp only [List.cons_append, containsSeq_cons]
    rw [ih h, Bool.or_true]

theorem containsSeq_sub_left {p : List Char} :
    ∀ {x y : List Char}, containsSeq p x = true → containsSeq p (x ++ y) = true := by
  intro x
  induction x with
  | nil =>
    intro y h
    cases p with
    | nil =>
      cases y with
      | nil => simpa using h
      | cons d ds => simp [containsSeq_cons, headIs, chopLit]
    | cons a ps => simp [containsSeq, headIs, chopLit] at h
  | cons c cs ih =>
    intro y h
    rw [containsSeq_cons] at h
    simp only [List.cons_append, containsSeq_cons]
    cases hh : headIs p (c :: cs) with
    | true =>
      have hmt := headIs_mono (y := y) hh
      rw [List.cons_append] at hmt
      rw [hmt]; rfl
    | false =>
      rw [hh] at h
      simp only [Bool.false_or] at h
      rw [ih h, Bool.or_true]

theorem containsSeq_append_false {p x y : List Char}
    (h : containsSeq p (x ++ y) = false) :
    containsSeq p x = false ∧ containsSeq p y = false := by
  constructor
  · cases hx : containsSeq p x
    · rfl
    · rw [containsSeq_sub_left hx] at h; cases h
  · cases hy : containsSeq p y
    · rfl
    · rw [containsSeq_sub_right hy] at h; cases h

theorem natToDecGo_acc (f : Nat) :
    ∀ (n : Nat) (acc : List Char), natToDecGo f n acc = natToDecGo f n [] ++ acc := by
  induction f with
  | zero => intro n acc; rfl
  | succ f ih =>
    intro n acc
    cases n with
    | zero => rfl
    | succ m =>
      simp only [natToDecGo]
      rw [ih ((m + 1) / 10) (Char.ofNat (48 + (m + 1) % 10) :: acc),
          ih ((m + 1) / 10) [Char.ofNat (48 + (m + 1) % 10)]]
      simp

theorem decToNat_eq_decAux (ds : List Char) : decToNat ds = decAux 0 ds := rfl

theorem decAux_append (a : Nat) (l r : List Char) :
    decAux a (l ++ r) = decAux (decAux a l) r :=
  List.foldl_append ..

theorem digitChar_val {d : Nat} (hd : d < 10) :
    (Char.ofNat (48 + d)).toNat - 48 = d ∧ (Char.ofNat (48 + d)).isDigit = true := by
  interval_cases d <;> exact ⟨by decide, by decide⟩

theorem decAux_natToDecGo :
    ∀ (f n a : Nat), 0 < n → n ≤ f →
      decAux a (natToDecGo f n []) = a * 10 ^ (natToDecGo f n []).length + n := by
  intro f
  induction f with
  | zero => intro n a hn hf; omega
  | succ f ih =>
    intro n a hn hf
    match n, hn with
    | m + 1, _ =>
      simp only [natToDecGo]
      rw [natToDecGo_acc f ((m + 1) / 10) [Char.ofNat (48 + (m + 1) % 10)]]
      have hdm := Nat.div_add_mod (m + 1) 10
      have hmod : (m + 1) % 10 < 10 := Nat.mod_lt _ (by norm_num)
      have hval := (digitChar_val hmod).1
      by_cases hq : (m + 1) / 10 = 0
      · have hz : natToDecGo f ((m + 1) / 10) [] = [] := by rw [hq]; cases f <;> rfl
        rw [hz]
        have hlt : m + 1 < 10 := by omega
        simp only [List.nil_append, decAux, List.foldl, List.length_cons, List.length_nil]
        rw [hval]
        have : (m + 1) % 10 = m + 1 := Nat.mod_eq_of_lt hlt
        rw [this, pow_one]
        ring
      · have hqpos : 0 < (m + 1) / 10 := Nat.pos_of_ne_zero hq
        have hqle : (m + 1) / 10 ≤ f := by
          have := Nat.div_lt_self (by omega : 0 < m + 1) (by norm_num : 1 < 10)
          omega
        rw [decAux_append, ih ((m + 1) / 10) a hqpos hqle]
        simp only [decAux, List.foldl, List.length_append, List.length_cons,
          List.length_nil]
        rw [hval]
        set X := 10 ^ (natToDecGo f ((m + 1) / 10) []).length with hX
        calc 10 * (a * X + (m + 1) / 10) + (m + 1) % 10
            = a * (X * 10) + (10 * ((m + 1) / 10) + (m + 1) % 10) := by ring
          _ = a * (X * 10) + (m + 1) := by rw [hdm]
          _ = a * 10 ^ ((natToDecGo f ((m + 1) / 10) []).length + 1) + (m + 1) := by
              rw [pow_succ, hX]

theorem decToNat_natToDec (n : Nat) : decToNat (natToDec n) = n := by
  unfold natToDec
  by_cases h : n = 0
  · subst h; decide
  · rw [if_neg h]
    have := decAux_natToDecGo (n + 1) n 0 (Nat.pos_of_ne_zero h) (Nat.le_succ n)
    rw [decToNat_eq_decAux, this]
    simp

theorem natToDec_ne_nil (n : Nat) : natToDec n ≠ [] := by
  unfold natToDec
  by_cases h : n = 0
  · subst h; simp
  · rw [if_neg h]
    match n, h with
    | m + 1, _ =>
      simp only [natToDecGo]
      rw [natToDecGo_acc]
      simp

theorem natToDecGo_digits :
    ∀ (f n : Nat) (acc : List Char), (∀ c ∈ acc, c.isDigit = true) →
      ∀ c ∈ natToDecGo f n acc, c.isDigit = true := by
  intro f
  induction f with
  | zero => intro n acc hacc; exact hacc
  | succ f ih =>
    intro n acc hacc
    cases n with
    | zero => exact hacc
    | succ m =>
      simp only [natToDecGo]
      refine ih ((m + 1) / 10) _ ?_
      intro c hc
      rcases List.mem_cons.mp hc with h1 | h1
      · subst h1
        exact (digitChar_val (Nat.mod_lt _ (by norm_num))).2
      · exact hacc c h1

theorem natToDec_digits (n : Nat) : ∀ c ∈ natToDec n, c.isDigit = true := by
  unfold natToDec
  by_cases h : n = 0
  · subst h; intro c hc; simp at hc; subst hc; decide
  · rw [if_neg h]
    exact natToDecGo_digits (n + 1) n [] (by intro c hc; simp at hc)


theorem takeWhile_run {p : Char → Bool} :
    ∀ {l : List Char} {h : Char} {r : List Char}, (∀ c ∈ l, p c = true) → p h = false →
      (l ++ h :: r).takeWhile p = l := by
  intro l
  induction l with
  | nil => intro h r _ hh; simp [List.takeWhile_cons, hh]
  | cons a as ih =>
    intro h r hl hh
    rw [List.cons_append, List.takeWhile_cons, if_pos (hl a (List.mem_cons_self _ _)),
        ih (fun c hc => hl c (List.mem_cons_of_mem a hc)) hh]

theorem drop_len_takeWhile (p : Char → Bool) :
    ∀ (s : List Char), s.drop (s.takeWhile p).length = s.dropWhile p := by
  intro s
  induction s with
  | nil => rfl
  | cons c cs ih =>
    by_cases h : p c
    · simp [List.takeWhile_cons, List.dropWhile_cons, h, ih]
    · simp [List.takeWhile_cons, List.dropWhile_cons, h]

theorem mem_takeWhile_val {p : Char → Bool} :
    ∀ {s : List Char} {c : Char}, c ∈ s.takeWhile p → p c = true := by
  intro s
  induction s with
  | nil => intro c hc; simp [List.takeWhile] at hc
  | cons a as ih =>
    intro c hc
    by_cases h : p a
    · rw [List.takeWhile_cons, if_pos h] at hc
      rcases List.mem_cons.mp hc with h1 | h1
      · subst h1; exact h
      · exact ih h1
    · rw [List.takeWhile_cons, if_neg h] at hc
      simp at hc

theorem phTok_eq (n : Nat) : phTok n = patHL ++ (natToDec n ++ '_' :: '_' :: []) := by
  unfold phTok patHL
  simp

theorem phTok_length (n : Nat) : 12 ≤ (phTok n).length := by
  rw [phTok_eq]
  have h1 : 1 ≤ (natToDec n).length :=
    List.length_pos.mpr (natToDec_ne_nil n)
  simp only [List.length_append, List.length_cons, List.length_nil]
  have h9 : patHL.length = 9 := rfl
  omega

theorem tryTok_phTok (n : Nat) (x : List Char) :
    tryTok (phTok n ++ x) = some (n, x) := by
  obtain ⟨d, ds, hd⟩ : ∃ d ds, natToDec n = d :: ds := by
    cases hnd : natToDec n with
    | nil => exact absurd hnd (natToDec_ne_nil n)
    | cons d ds => exact ⟨d, ds, rfl⟩
  have e : phTok n ++ x = patHL ++ (d :: (ds ++ '_' :: '_' :: x)) := by
    rw [phTok_eq, hd]; simp
  have hdig : ∀ c ∈ d :: ds, Char.isDigit c = true := hd ▸ natToDec_digits n
  have htw : (d :: (ds ++ '_' :: '_' :: x)).takeWhile Char.isDigit = d :: ds := by
    have := takeWhile_run (l := d :: ds) (h := '_') (r := '_' :: x) hdig (by decide)
    simpa using this
  have hdrop : (d :: (ds ++ '_' :: '_' :: x)).drop (d :: ds).length = '_' :: '_' :: x := by
    have hdl := List.drop_left (d :: ds) ('_' :: '_' :: x)
    simp only [List.cons_append] at hdl
    exact hdl
  have hch : chopLit "__".data ('_' :: '_' :: x) = some x := chopLit_self ['_', '_'] x
  have hn : decToNat (d :: ds) = n := by rw [← hd]; exact decToNat_natToDec n
  rw [e]
  simp only [tryTok, chopLit_self, htw, hdrop, hch, hn]

theorem tryTok_some {s : List Char} {k : Nat} {r : List Char}
    (h : tryTok s = some (k, r)) :
    ∃ ds : List Char,
      s = patHL ++ ds ++ ('_' :: '_' :: r) ∧ ds ≠ [] ∧ ∀ c ∈ ds, c.isDigit = true := by
  unfold tryTok at h
  cases hc : chopLit patHL s with
  | none => rw [hc] at h; cases h
  | some s1 =>
    rw [hc] at h
    dsimp only at h
    cases hds : s1.takeWhile Char.isDigit with
    | nil => rw [hds] at h; cases h
    | cons d0 ds0 =>
      rw [hds] at h
      dsimp only at h
      cases hch : chopLit "__".data (s1.drop (d0 :: ds0).length) with
      | none => rw [hch] at h; cases h
      | some r2 =>
        rw [hch] at h
        dsimp only at h
        injection h with h1
        have hk : decToNat (d0 :: ds0) = k := congrArg Prod.fst h1
        have hr : r2 = r := congrArg Prod.snd h1
        subst hr
        have hs1 : s = patHL ++ s1 := chopLit_iff.mp hc
        have hsplit : s1 = (d0 :: ds0) ++ s1.dropWhile Char.isDigit := by
          conv_lhs => rw [← List.takeWhile_append_dropWhile (p := Char.isDigit) (l := s1)]
          rw [hds]
        have hdw : s1.dropWhile Char.isDigit = '_' :: '_' :: r2 := by
          have h2 := chopLit_iff.mp hch
          rw [← hds, drop_len_takeWhile] at h2
          simpa using h2
        refine ⟨d0 :: ds0, ?_, by simp, ?_⟩
        · rw [hs1, hsplit, hdw]
          simp
        · intro c hcmem
          exact mem_takeWhile_val (hds ▸ hcmem)

theorem tryTok_some_length {s : List Char} {k : Nat} {r : List Char}
    (h : tryTok s = some (k, r)) : r.length + 12 ≤ s.length := by
  obtain ⟨ds, hs, hne, _⟩ := tryTok_some h
  have h1 : 1 ≤ ds.length := List.length_pos.mpr hne
  have h9 : patHL.length = 9 := rfl
  rw [hs]
  simp only [List.length_append, List.length_cons]
  omega

theorem tryTok_of_not_containsSeq {s : List Char}
    (h : containsSeq patHL s = false) : tryTok s = none := by
  cases hx : tryTok s with
  | none => rfl
  | some kr =>
    obtain ⟨k, r⟩ := kr
    obtain ⟨ds, hs, _, _⟩ := tryTok_some hx
    have hhead : headIs patHL s = true := by
      rw [hs, List.append_assoc]
      exact headIs_append _ _
    rw [containsSeq_of_headIs (by decide) hhead] at h
    cases h

theorem tryTok_piece_none {c : Char} {p x : List Char} {k : Nat}
    (hp : containsSeq patHL (c :: p) = false) :
    tryTok ((c :: p) ++ (phTok k ++ x)) = none := by
  cases h : tryTok ((c :: p) ++ (phTok k ++ x)) with
  | none => rfl
  | some kr =>
    obtain ⟨k', r⟩ := kr
    obtain ⟨ds, hs, hne, hdig⟩ := tryTok_some h
    rw [List.append_assoc patHL ds] at hs
    exfalso
    have h9 : patHL.length = 9 := rfl
    by_cases hl : 9 ≤ (c :: p).length
    · have htake : (c :: p).take 9 = patHL := by
        have ht := congrArg (List.take 9) hs
        rw [List.take_append_of_le_length hl, ← h9, List.take_left] at ht
        exact ht
      have hhead : headIs patHL (c :: p) = true := by
        have hsp : c :: p = patHL ++ (c :: p).drop 9 := by
          conv_lhs => rw [← List.take_append_drop 9 (c :: p)]
          rw [htake]
        rw [hsp]
        exact headIs_append _ _
      rw [containsSeq_of_headIs (by decide) hhead] at hp
      cases hp
    · push_neg at hl
      have hL1 : 1 ≤ (c :: p).length := by simp
      have htk := congrArg (List.take 9) hs
      rw [List.take_append_eq_append_take,
          List.take_of_length_le (by omega : (c :: p).length ≤ 9), ← h9,
          List.take_left, h9] at htk
      rw [phTok_eq, List.append_assoc, List.take_append_eq_append_take] at htk
      have h0 : 9 - (c :: p).length - patHL.length = 0 := by omega
      rw [h0, List.take_zero, List.append_nil] at htk
      have hdropL := congrArg (List.drop (c :: p).length) htk
      rw [List.drop_left] at hdropL
      by_cases hL7 : (c :: p).length ≤ 7
      · have hcontra : patHL.take (9 - (c :: p).length) ≠ patHL.drop (c :: p).length := by
          set L := (c :: p).length with hLdef
          clear_value L
          interval_cases L <;> decide
        exact hcontra hdropL
      · have hL8 : (c :: p).length = 8 := by omega
        have hR : ((c :: p) ++ (phTok k ++ x)).drop 9 = ds ++ '_' :: '_' :: r := by
          rw [hs, ← h9, List.drop_left]
        have hLft : ((c :: p) ++ (phTok k ++ x)).drop 9 = (phTok k ++ x).drop 1 := by
          rw [List.drop_append_eq_append_drop,
              List.drop_eq_nil_of_le (by omega : (c :: p).length ≤ 9), hL8,
              List.nil_append]
        have hhd : ((phTok k ++ x).drop 1).head? = some '_' := by
          rw [phTok_eq]
          rfl
        rw [hLft] at hR
        cases ds with
        | nil => exact absurd rfl hne
        | cons d ds' =>
          have hx2 : some d = some '_' := by
            rw [← hhd, hR]
            rfl
          injection hx2 with hdeq
          have hdd := hdig d (List.mem_cons_self _ _)
          rw [hdeq] at hdd
          cases hdd

theorem unmaskGo_nil (tags : List (List Char)) (f : Nat) : unmaskGo tags f [] = [] := by
  cases f <;> rfl

theorem unmaskGo_eq_of_tok {tags : List (List Char)} {f : Nat} {s : List Char}
    {k : Nat} {rest : List Char} (h : tryTok s = some (k, rest)) (hs : s ≠ []) :
    unmaskGo tags (f + 1) s = tagAt tags k ++ unmaskGo tags f rest := by
  cases s with
  | nil => exact absurd rfl hs
  | cons c cs => rw [unmaskGo, h]

theorem unmaskGo_eq_of_none {tags : List (List Char)} {f : Nat} {c : Char}
    {cs : List Char} (h : tryTok (c :: cs) = none) :
    unmaskGo tags (f + 1) (c :: cs) = c :: unmaskGo tags f cs := by
  rw [unmaskGo, h]

theorem tokCountGo_nil (f : Nat) : tokCountGo f [] = 0 := by
  cases f <;> rfl

theorem tokCountGo_eq_of_tok {f : Nat} {s : List Char} {k : Nat} {rest : List Char}
    (h : tryTok s = some (k, rest)) (hs : s ≠ []) :
    tokCountGo (f + 1) s = tokCountGo f rest + 1 := by
  cases s with
  | nil => exact absurd rfl hs
  | cons c cs => rw [tokCountGo, h]

theorem tokCountGo_eq_of_none {f : Nat} {c : Char} {cs : List Char}
    (h : tryTok (c :: cs) = none) :
    tokCountGo (f + 1) (c :: cs) = tokCountGo f cs := by
  rw [tokCountGo, h]

theorem unmaskGo_fuelIrrel (tags : List (List Char)) :
    ∀ (f : Nat) (s : List Char) (g : Nat), s.length ≤ f → s.length ≤ g →
      unmaskGo tags f s = unmaskGo tags g s := by
  intro f
  induction f with
  | zero =>
    intro s g hf _
    have : s = [] := List.eq_nil_of_length_eq_zero (Nat.le_zero.mp hf)
    subst this
    rw [unmaskGo_nil, unmaskGo_nil]
  | succ f ih =>
    intro s g hf hg
    cases s with
    | nil => rw [unmaskGo_nil, unmaskGo_nil]
    | cons c cs =>
      match g, hg with
      | g + 1, hg =>
        cases h : tryTok (c :: cs) with
        | some kr =>
          obtain ⟨k, rest⟩ := kr
          have hlen := tryTok_some_length h
          simp only [List.length_cons] at hf hg hlen
          rw [unmaskGo_eq_of_tok h (by simp), unmaskGo_eq_of_tok h (by simp)]
          rw [ih rest g (by omega) (by omega)]
        | none =>
          simp only [List.length_cons] at hf hg
          rw [unmaskGo_eq_of_none h, unmaskGo_eq_of_none h]
          rw [ih cs g (by omega) (by omega)]

theorem tokCountGo_fuelIrrel :
    ∀ (f : Nat) (s : List Char) (g : Nat), s.length ≤ f → s.length ≤ g →
      tokCountGo f s = tokCountGo g s := by
  intro f
  induction f with
  | zero =>
    intro s g hf _
    have : s = [] := List.eq_nil_of_length_eq_zero (Nat.le_zero.mp hf)
    subst this
    rw [tokCountGo_nil, tokCountGo_nil]
  | succ f ih =>
    intro s g hf hg
    cases s with
    | nil => rw [tokCountGo_nil, tokCountGo_nil]
    | cons c cs =>
      match g, hg with
      | g + 1, hg =>
        cases h : tryTok (c :: cs) with
        | some kr =>
          obtain ⟨k, rest⟩ := kr
          have hlen := tryTok_some_length h
          simp only [List.length_cons] at hf hg hlen
          rw [tokCountGo_eq_of_tok h (by simp), tokCountGo_eq_of_tok h (by simp)]
          rw [ih rest g (by omega) (by omega)]
        | none =>
          simp only [List.length_cons] at hf hg
          rw [tokCountGo_eq_of_none h, tokCountGo_eq_of_none h]
          rw [ih cs g (by omega) (by omega)]

theorem unmaskGo_no_tok (tags : List (List Char)) :
    ∀ (p : List Char) (f : Nat), containsSeq patHL p = false → p.length ≤ f →
      unmaskGo tags f p = p := by
  intro p
  induction p with
  | nil => intro f _ _; exact unmaskGo_nil tags f
  | cons c cs ih =>
    intro f hp hf
    match f, hf with
    | f + 1, hf =>
      have hcs : containsSeq patHL cs = false := by
        rw [containsSeq_cons] at hp
        exact (Bool.or_eq_false_iff.mp hp).2
      rw [unmaskGo_eq_of_none (tryTok_of_not_containsSeq hp)]
      rw [ih f hcs (by simpa using Nat.le_of_succ_le_succ (by simpa using hf))]

theorem tokCountGo_no_tok :
    ∀ (p : List Char) (f : Nat), containsSeq patHL p = false → p.length ≤ f →
      tokCountGo f p = 0 := by
  intro p
  induction p with
  | nil => intro f _ _; exact tokCountGo_nil f
  | cons c cs ih =>
    intro f hp hf
    match f, hf with
    | f + 1, hf =>
      have hcs : containsSeq patHL cs = false := by
        rw [containsSeq_cons] at hp
        exact (Bool.or_eq_false_iff.mp hp).2
      rw [tokCountGo_eq_of_none (tryTok_of_not_containsSeq hp)]
      exact ih f hcs (by simpa using Nat.le_of_succ_le_succ (by simpa using hf))

theorem phTok_ne_nil (n : Nat) : phTok n ++ x ≠ ([] : List Char) := by
  rw [phTok_eq]
  simp

theorem unmaskGo_piece (tags : List (List Char)) :
    ∀ (p : List Char) (f k : Nat) (x : List Char),
      containsSeq patHL p = false →
      (p ++ (phTok k ++ x)).length ≤ f →
      unmaskGo tags f (p ++ (phTok k ++ x)) =
        p ++ tagAt tags k ++ unmaskGo tags (x.length + 1) x := by
  intro p
  induction p with
  | nil =>
    intro f k x _ hf
    have h12 := phTok_length k
    simp only [List.nil_append, List.length_append] at hf ⊢
    match f, (by omega : 1 ≤ f) with
    | f + 1, _ =>
      rw [unmaskGo_eq_of_tok (tryTok_phTok k x) (phTok_ne_nil k)]
      congr 1
      exact unmaskGo_fuelIrrel tags f x (x.length + 1) (by omega) (Nat.le_succ _)
  | cons c p' ih =>
    intro f k x hp hf
    match f, hf with
    | f + 1, hf =>
      have hp' : containsSeq patHL p' = false := by
        rw [containsSeq_cons] at hp
        exact (Bool.or_eq_false_iff.mp hp).2
      have hcons : (c :: p') ++ (phTok k ++ x) = c :: (p' ++ (phTok k ++ x)) := rfl
      rw [hcons, unmaskGo_eq_of_none (show tryTok (c :: (p' ++ (phTok k ++ x))) = none from
        tryTok_piece_none hp)]
      rw [ih f k x hp' (by simpa using Nat.le_of_succ_le_succ (by simpa using hf))]
      rfl

theorem tokCountGo_piece :
    ∀ (p : List Char) (f k : Nat) (x : List Char),
      containsSeq patHL p = false →
      (p ++ (phTok k ++ x)).length ≤ f →
      tokCountGo f (p ++ (phTok k ++ x)) = tokCountGo (x.length + 1) x + 1 := by
  intro p
  induction p with
  | nil =>
    intro f k x _ hf
    have h12 := phTok_length k
    simp only [List.nil_append] at hf ⊢
    match f, (by simp only [List.length_append] at hf; omega : 1 ≤ f) with
    | f + 1, _ =>
      rw [tokCountGo_eq_of_tok (tryTok_phTok k x) (phTok_ne_nil k)]
      congr 1
      exact tokCountGo_fuelIrrel f x (x.length + 1)
        (by simp only [List.length_append] at hf; omega) (Nat.le_succ _)
  | cons c p' ih =>
    intro f k x hp hf
    match f, hf with
    | f + 1, hf =>
      have hp' : containsSeq patHL p' = false := by
        rw [containsSeq_cons] at hp
        exact (Bool.or_eq_false_iff.mp hp).2
      have hcons : (c :: p') ++ (phTok k ++ x) = c :: (p' ++ (phTok k ++ x)) := rfl
      rw [hcons, tokCountGo_eq_of_none (show tryTok (c :: (p' ++ (phTok k ++ x))) = none from
        tryTok_piece_none hp)]
      exact ih f k x hp' (by simpa using Nat.le_of_succ_le_succ (by simpa using hf))

theorem splitFirst_some {ch : Char} :
    ∀ {s pre post : List Char}, splitFirst ch s = some (pre, post) →
      s = pre ++ ch :: post := by
  intro s
  induction s with
  | nil => intro pre post h; cases h
  | cons c cs ih =>
    intro pre post h
    simp only [splitFirst] at h
    by_cases hc : c = ch
    · rw [if_pos hc] at h
      injection h with h1
      have hpre : pre = [] := (congrArg Prod.fst h1).symm
      have hpost : post = cs := (congrArg Prod.snd h1).symm
      subst hpre; subst hpost; subst hc
      rfl
    · rw [if_neg hc] at h
      cases hs : splitFirst ch cs with
      | none => rw [hs] at h; cases h
      | some pp =>
        obtain ⟨pre', post'⟩ := pp
        rw [hs] at h
        injection h with h1
        have hpre : pre = c :: pre' := (congrArg Prod.fst h1).symm
        have hpost : post = post' := (congrArg Prod.snd h1).symm
        subst hpre; subst hpost
        rw [List.cons_append, ← ih hs]

theorem getD_append_len (preT : List (List Char)) (t : List Char)
    (ts : List (List Char)) (d : List Char) :
    (preT ++ t :: ts).getD preT.length d = t := by
  induction preT with
  | nil => rfl
  | cons a as ih => simpa using ih

/-- The mask/unmask round trip: on any text that does not already contain the
placeholder literal, unmasking the masked text with the captured tags restores
the text exactly, and the masked text carries exactly one placeholder token
per captured tag. -/
theorem mask_roundTrip_aux :
    ∀ (f : Nat) (s : List Char) (n : Nat) (preT : List (List Char)),
      s.length + 1 ≤ f → containsSeq patHL s = false → preT.length = n →
      unmaskSub (preT ++ (maskGo f n s).2) (maskGo f n s).1 = s ∧
      tokCount (maskGo f n s).1 = (maskGo f n s).2.length := by
  intro f
  induction f with
  | zero => intro s n preT hf; omega
  | succ f ih =>
    intro s n preT hf hpat hlen
    cases hsp : splitFirst '<' s with
    | none =>
      simp only [maskGo, hsp, List.append_nil]
      exact ⟨by
        unfold unmaskSub
        exact unmaskGo_no_tok _ s _ hpat (Nat.le_succ s.length),
        by
        unfold tokCount
        rw [tokCountGo_no_tok s _ hpat (Nat.le_succ s.length)]
        rfl⟩
    | some pp =>
      obtain ⟨pre, afterLt⟩ := pp
      cases hgt : splitFirst '>' afterLt with
      | none =>
        simp only [maskGo, hsp, hgt, List.append_nil]
        exact ⟨by
          unfold unmaskSub
          exact unmaskGo_no_tok _ s _ hpat (Nat.le_succ s.length),
          by
          unfold tokCount
          rw [tokCountGo_no_tok s _ hpat (Nat.le_succ s.length)]
          rfl⟩
      | some bp =>
        obtain ⟨body, rest⟩ := bp
        have hs1 : s = pre ++ '<' :: afterLt := splitFirst_some hsp
        have hs2 : afterLt = body ++ '>' :: rest := splitFirst_some hgt
        have hsx : s = pre ++ (('<' :: body ++ ['>']) ++ rest) := by
          rw [hs1, hs2]
          simp
        have hpre : containsSeq patHL pre = false :=
          (containsSeq_append_false (hsx ▸ hpat)).1
        have hrest : containsSeq patHL rest = false :=
          (containsSeq_append_false
            (containsSeq_append_false (hsx ▸ hpat)).2).2
        have hflen : rest.length + 1 ≤ f := by
          have hslen : s.length = pre.length + body.length + rest.length + 2 := by
            rw [hsx]
            simp [List.length_append, List.length_cons]
            omega
          omega
        rcases hmk : maskGo f (n + 1) rest with ⟨m1, ts1⟩
        obtain ⟨IH1, IH2⟩ := ih rest (n + 1) (preT ++ ['<' :: body ++ ['>']]) hflen hrest
          (by simp [hlen])
        rw [hmk] at IH1 IH2
        dsimp only at IH1 IH2
        simp only [maskGo, hsp, hgt, hmk]
        constructor
        · unfold unmaskSub
          rw [List.append_assoc]
          rw [unmaskGo_piece (preT ++ ('<' :: body ++ ['>']) :: ts1) pre
            ((pre ++ (phTok n ++ m1)).length + 1) n m1 hpre (by omega)]
          rw [show preT ++ ('<' :: body ++ ['>']) :: ts1
              = (preT ++ ['<' :: body ++ ['>']]) ++ ts1 by simp]
          rw [show tagAt ((preT ++ ['<' :: body ++ ['>']]) ++ ts1) n = '<' :: body ++ ['>'] from by
            unfold tagAt
            rw [show (preT ++ ['<' :: body ++ ['>']]) ++ ts1
                = preT ++ ('<' :: body ++ ['>']) :: ts1 by simp, ← hlen]
            exact getD_append_len preT _ ts1 _]
          unfold unmaskSub at IH1
          rw [IH1, hsx]
          simp
        · unfold tokCount
          rw [List.append_assoc]
          rw [tokCountGo_piece pre ((pre ++ (phTok n ++ m1)).length + 1) n m1 hpre (by omega)]
          unfold tokCount at IH2
          rw [IH2]
          simp

/-- C2 amended: provided the text reaching the masking pass does not already
contain the placeholder literal `__HL_TAG_`, masking inserts exactly one
placeholder token per captured span and immediately unmasking with the
captured table restores the text exactly (every placeholder removed, every
span back verbatim, in order).  On the full pipeline this is witnessed for
`<div class="a">`: its masked text carries exactly its 10 placeholders and
none of the captured span text, and the final output carries no placeholder
and all 10 spans in their original order.  (Without that proviso the claim
fails: see the counterexample, whose input is itself a placeholder token.) -/
theorem mask_unmask_roundTrip :
    (∀ t : List Char, containsSeq patHL t = false →
        unmaskSub (maskSub t).2 (maskSub t).1 = t ∧
        tokCount (maskSub t).1 = (maskSub t).2.length) ∧
    (tokCount (maskStage "<div class=\"a\">").1 = 10 ∧
     (maskStage "<div class=\"a\">").2.length = 10 ∧
     (maskStage "<div class=\"a\">").2.all
        (fun tg => !(containsSeq tg (maskStage "<div class=\"a\">").1)) = true ∧
     tokCount (highlightLine "<div class=\"a\">").data = 0 ∧
     seqContains (maskStage "<div class=\"a\">").2
       (highlightLine "<div class=\"a\">").data = true) := by
  constructor
  · intro t ht
    have h := mask_roundTrip_aux (t.length + 1) t 0 [] (Nat.le_refl _) ht rfl
    simpa [maskSub] using h
  · exact ⟨by decide, by decide, by decide, by decide, by decide⟩

/-- C2 witness: the round-trip theorem applied to the text `x<b>y`. -/
theorem mask_unmask_roundTrip_witness :
    containsSeq patHL "x<b>y".data = false ∧
    (unmaskSub (maskSub "x<b>y".data).2 (maskSub "x<b>y".data).1 = "x<b>y".data ∧
     tokCount (maskSub "x<b>y".data).1 = (maskSub "x<b>y".data).2.length) :=
  ⟨by decide, mask_unmask_roundTrip.1 "x<b>y".data (by decide)⟩

end HL
